import Mathlib

/-!
Verification of the retrieval-and-ranking core of the legal-document QA
pipeline.  Text is modelled as `List Char`; Python floats are modelled as
exact rationals (`ℚ`), so threshold comparisons are idealized to exact
arithmetic.  Python's Unicode-aware `str.lower` is modelled by the
ASCII-only `Char.toLower`, and `str.split` / `str.strip` use the ASCII
whitespace set, matching the ASCII corpora the scripts process.
-/

set_option maxHeartbeats 1000000

abbrev Txt := List Char

/-- Python whitespace characters recognized by str.split / str.strip / regex \s. -/
def isPySpace (c : Char) : Bool :=
  c = ' ' || c = '\t' || c = '\n' || c = '\r' || c = '\x0b' || c = '\x0c'

/-- One step of the right fold that implements Python str.split():
the accumulator is (current word, completed words to the right). -/
def wordStep (c : Char) (acc : Txt × List Txt) : Txt × List Txt :=
  if isPySpace c then ([], if acc.1 = [] then acc.2 else acc.1 :: acc.2)
  else (c :: acc.1, acc.2)

/-- Close the final pending word of the fold state. -/
def wordFinish (acc : Txt × List Txt) : List Txt :=
  if acc.1 = [] then acc.2 else acc.1 :: acc.2

/-- Python str.split() with no arguments: maximal runs of non-whitespace. -/
def pyWords (t : Txt) : List Txt :=
  wordFinish (t.foldr wordStep ([], []))

/-- Python str.strip(): remove leading and trailing whitespace. -/
def pyStrip (t : Txt) : Txt :=
  ((t.dropWhile isPySpace).reverse.dropWhile isPySpace).reverse

/-- Python sep.join(list) for an explicit separator. -/
def joinWith (sep : Txt) : List Txt → Txt
  | [] => []
  | [x] => x
  | x :: y :: ys => x ++ sep ++ joinWith sep (y :: ys)

/-- Python ' '.join(list). -/
def joinSp (l : List Txt) : Txt := joinWith [' '] l

/-- Words of each piece, concatenated. -/
def flatWords : List Txt → List Txt
  | [] => []
  | w :: ws => pyWords w ++ flatWords ws

lemma foldr_wordStep_append (t : Txt) (ws : List Txt) :
    t.foldr wordStep ([], ws) =
      ((t.foldr wordStep ([], [])).1, (t.foldr wordStep ([], [])).2 ++ ws) := by
  induction t with
  | nil => simp
  | cons c t ih =>
    simp only [List.foldr_cons, ih, wordStep]
    by_cases hsp : isPySpace c <;> by_cases hnil : (t.foldr wordStep ([], [])).1 = [] <;>
      simp [hsp, hnil]

lemma pyWords_append_space (c : Char) (hc : isPySpace c = true) (x y : Txt) :
    pyWords (x ++ c :: y) = pyWords x ++ pyWords y := by
  unfold pyWords
  rw [List.foldr_append]
  have h1 : List.foldr wordStep ([], []) (c :: y) = ([], pyWords y) := by
    rw [List.foldr_cons]
    unfold wordStep
    rw [if_pos hc]
    rfl
  rw [h1]
  have h2 := foldr_wordStep_append x (pyWords y)
  have h3 : List.foldr wordStep ([], pyWords y) x =
      ((x.foldr wordStep ([], [])).1, (x.foldr wordStep ([], [])).2 ++ pyWords y) := by
    have h4 : (([] : Txt), pyWords y) = (([] : Txt), [] ++ pyWords y) := by simp
    rw [h4] at h2 ⊢
    exact h2
  rw [h3]
  unfold pyWords wordFinish
  by_cases hnil : (List.foldr wordStep ([], []) x).1 = [] <;> simp [hnil]

lemma foldr_wordStep_spaces (s : Txt) (hs : ∀ c ∈ s, isPySpace c = true) :
    s.foldr wordStep ([], []) = ([], []) := by
  induction s with
  | nil => rfl
  | cons c s ih =>
    have hc := hs c (List.mem_cons_self c s)
    simp only [List.foldr_cons, ih fun d hd => hs d (List.mem_cons_of_mem c hd), wordStep, hc]
    simp

lemma pyWords_append_spaces (x s : Txt) (hs : ∀ c ∈ s, isPySpace c = true) :
    pyWords (x ++ s) = pyWords x := by
  unfold pyWords
  rw [List.foldr_append, foldr_wordStep_spaces s hs]

lemma foldr_wordStep_spaces_init (s : Txt) (hs : ∀ c ∈ s, isPySpace c = true) (hne : s ≠ [])
    (q : Txt × List Txt) : s.foldr wordStep q = ([], wordFinish q) := by
  induction s with
  | nil => exact absurd rfl hne
  | cons c s ih =>
    have hc := hs c (List.mem_cons_self c s)
    by_cases hsnil : s = []
    · subst hsnil
      simp only [List.foldr_cons, List.foldr_nil, wordStep, hc, if_true, wordFinish]
    · rw [List.foldr_cons, ih (fun d hd => hs d (List.mem_cons_of_mem c hd)) hsnil]
      simp [wordStep, hc, wordFinish]

lemma pyWords_spaces_append (s x : Txt) (hs : ∀ c ∈ s, isPySpace c = true) :
    pyWords (s ++ x) = pyWords x := by
  by_cases hne : s = []
  · subst hne; rfl
  · unfold pyWords
    rw [List.foldr_append, foldr_wordStep_spaces_init s hs hne]
    simp [wordFinish]

lemma pyWords_dropWhile (t : Txt) :
    pyWords (t.dropWhile isPySpace) = pyWords t := by
  conv_rhs => rw [← List.takeWhile_append_dropWhile (p := isPySpace) (l := t)]
  rw [pyWords_spaces_append]
  intro c hc
  exact List.mem_takeWhile_imp hc

lemma pyWords_pyStrip (t : Txt) : pyWords (pyStrip t) = pyWords t := by
  unfold pyStrip
  rw [← pyWords_dropWhile t]
  set y := t.dropWhile isPySpace with hy
  have hdecomp : y = (y.reverse.dropWhile isPySpace).reverse ++
      (y.reverse.takeWhile isPySpace).reverse := by
    conv_lhs => rw [← List.reverse_reverse y]
    conv_lhs => rw [← List.takeWhile_append_dropWhile (p := isPySpace) (l := y.reverse)]
    rw [List.reverse_append]
  conv_rhs => rw [hdecomp]
  rw [pyWords_append_spaces]
  intro c hc
  rw [List.mem_reverse] at hc
  exact List.mem_takeWhile_imp hc

lemma length_pyStrip_le (t : Txt) : (pyStrip t).length ≤ t.length := by
  unfold pyStrip
  calc ((t.dropWhile isPySpace).reverse.dropWhile isPySpace).reverse.length
      = ((t.dropWhile isPySpace).reverse.dropWhile isPySpace).length := by
        rw [List.length_reverse]
    _ ≤ (t.dropWhile isPySpace).reverse.length := (List.dropWhile_sublist _).length_le
    _ = (t.dropWhile isPySpace).length := by rw [List.length_reverse]
    _ ≤ t.length := (List.dropWhile_sublist _).length_le

lemma pyWords_clean (t : Txt) :
    ∀ w ∈ pyWords t, w ≠ [] ∧ ∀ c ∈ w, isPySpace c = false := by
  have key : ∀ (t : Txt),
      (∀ c ∈ (t.foldr wordStep ([], [])).1, isPySpace c = false) ∧
      (∀ w ∈ (t.foldr wordStep ([], [])).2, w ≠ [] ∧ ∀ c ∈ w, isPySpace c = false) := by
    intro t
    induction t with
    | nil => simp
    | cons c t ih =>
      obtain ⟨ih1, ih2⟩ := ih
      simp only [List.foldr_cons, wordStep]
      by_cases hsp : isPySpace c
      · simp only [hsp, if_true]
        refine ⟨by simp, ?_⟩
        by_cases hnil : (t.foldr wordStep ([], [])).1 = []
        · simpa [hnil] using ih2
        · simp only [hnil, if_false]
          intro w hw
          rcases List.mem_cons.1 hw with h | h
          · exact h ▸ ⟨hnil, ih1⟩
          · exact ih2 w h
      · simp only [hsp, if_false]
        constructor
        · intro d hd
          rcases List.mem_cons.1 hd with h | h
          · subst h; simpa using hsp
          · exact ih1 d h
        · exact ih2
  intro w hw
  unfold pyWords wordFinish at hw
  rcases key t with ⟨k1, k2⟩
  by_cases hnil : (t.foldr wordStep ([], [])).1 = []
  · simp only [hnil, if_true] at hw
    exact k2 w hw
  · simp only [hnil, if_false] at hw
    rcases List.mem_cons.1 hw with h | h
    · exact h ▸ ⟨hnil, k1⟩
    · exact k2 w h

lemma pyWords_single (w : Txt) (hne : w ≠ []) (hc : ∀ c ∈ w, isPySpace c = false) :
    pyWords w = [w] := by
  have key : w.foldr wordStep ([], []) = (w, []) := by
    induction w with
    | nil => rfl
    | cons c t ih =>
      have hct := hc c (List.mem_cons_self c t)
      by_cases ht : t = []
      · subst ht; simp [wordStep, hct]
      · rw [List.foldr_cons, ih ht fun d hd => hc d (List.mem_cons_of_mem c hd)]
        simp [wordStep, hct]
  unfold pyWords
  rw [key]
  simp [wordFinish, hne]

lemma pyWords_joinSp (l : List Txt) : pyWords (joinSp l) = flatWords l := by
  induction l with
  | nil => rfl
  | cons w ws ih =>
    cases ws with
    | nil => simp [joinSp, joinWith, flatWords]
    | cons w2 ws2 =>
      have : joinSp (w :: w2 :: ws2) = w ++ ' ' :: joinSp (w2 :: ws2) := by
        simp [joinSp, joinWith]
      rw [this, pyWords_append_space ' ' rfl, ih]
      rfl

lemma flatWords_append (a b : List Txt) :
    flatWords (a ++ b) = flatWords a ++ flatWords b := by
  induction a with
  | nil => rfl
  | cons w ws ih => simp [flatWords, ih]

lemma flatWords_of_clean (l : List Txt)
    (h : ∀ w ∈ l, w ≠ [] ∧ ∀ c ∈ w, isPySpace c = false) : flatWords l = l := by
  induction l with
  | nil => rfl
  | cons w ws ih =>
    obtain ⟨h1, h2⟩ := h w (List.mem_cons_self w ws)
    simp [flatWords, pyWords_single w h1 h2, ih fun v hv => h v (List.mem_cons_of_mem w hv)]

/-! ## Chunker (src/scripts/chunking_single_script.py) -/

/-- Sentence-ending characters of the splitting regex in simple_sentences. -/
def isSentEnd (c : Char) : Bool :=
  c = '.' || c = '?' || c = '!' || c = ';' || c = ':' || c = '\n'

/-- Scanner for re.split of the pattern "(?<=[.?!;:\n])\s+": a maximal
whitespace run immediately after a sentence-ending character separates two
segments.  The first flag records being inside a separator whitespace run
(so its remaining whitespace is consumed); the second argument is the
current segment, reversed. -/
def sentSplitGo : Bool → Txt → Txt → List Txt
  | _, acc, [] => [acc.reverse]
  | true, acc, c :: cs =>
    if isPySpace c then sentSplitGo true acc cs
    else sentSplitGo false [c] cs
  | false, [], c :: cs => sentSplitGo false [c] cs
  | false, p :: acc, c :: cs =>
    if isPySpace c && isSentEnd p then
      (p :: acc).reverse :: sentSplitGo true [] cs
    else sentSplitGo false (c :: p :: acc) cs

/-- simple_sentences from the chunking script: replace carriage returns by
spaces, strip, split at sentence enders, strip each piece, drop empties. -/
def simple_sentences (t : Txt) : List Txt :=
  let cleaned := pyStrip (t.map fun c => if c = '\r' then ' ' else c)
  ((sentSplitGo false [] cleaned).map pyStrip).filter (fun s => !s.isEmpty)

/-- The overlap seed computed at a buffer close:
Python's ' '.join(' '.join(cur).split()[-overlap:]). -/
def last_words (ov : Nat) (cur : List Txt) : Txt :=
  joinSp ((pyWords (joinSp cur)).drop ((pyWords (joinSp cur)).length - ov))

/-- The accumulation loop of chunk_text: walk the sentences keeping a buffer
cur with tracked word count cw; close the buffer when adding the next
sentence would exceed max_words, seeding the next buffer with the trailing
overlap words of the closed chunk. -/
def chunkLoop (maxW ov : Nat) : List Txt → List Txt → Nat → List Txt
  | [], cur, _ => if cur = [] then [] else [pyStrip (joinSp cur)]
  | s :: rest, cur, cw =>
    if cur ≠ [] ∧ maxW < cw + (pyWords s).length then
      if 0 < ov then
        pyStrip (joinSp cur) ::
          chunkLoop maxW ov rest [last_words ov cur, s]
            ((pyWords (last_words ov cur)).length + (pyWords s).length)
      else
        pyStrip (joinSp cur) :: chunkLoop maxW ov rest [s] (pyWords s).length
    else
      chunkLoop maxW ov rest (cur ++ [s]) (cw + (pyWords s).length)

/-- The full list of chunks appended by chunk_text before the final
minimum-size filter. -/
def chunk_core (sents : List Txt) (maxW ov : Nat) : List Txt :=
  chunkLoop maxW ov sents [] 0

/-- chunk_text from the chunking script.  max_words and overlap are its
parameters; min_words models the module constant MIN_WORDS read by the
final filter. -/
def chunk_text (t : Txt) (maxW ov minW : Nat) : List Txt :=
  (chunk_core (simple_sentences t) maxW ov).filter
    (fun c => decide (minW ≤ (pyWords c).length))

lemma chunkLoop_nil (maxW ov : Nat) (cur : List Txt) (cw : Nat) :
    chunkLoop maxW ov [] cur cw = if cur = [] then [] else [pyStrip (joinSp cur)] := rfl

lemma chunkLoop_cons (maxW ov : Nat) (s : Txt) (rest cur : List Txt) (cw : Nat) :
    chunkLoop maxW ov (s :: rest) cur cw =
      if cur ≠ [] ∧ maxW < cw + (pyWords s).length then
        if 0 < ov then
          pyStrip (joinSp cur) ::
            chunkLoop maxW ov rest [last_words ov cur, s]
              ((pyWords (last_words ov cur)).length + (pyWords s).length)
        else
          pyStrip (joinSp cur) :: chunkLoop maxW ov rest [s] (pyWords s).length
      else
        chunkLoop maxW ov rest (cur ++ [s]) (cw + (pyWords s).length) := rfl

lemma pyWords_joinStrip (cur : List Txt) :
    pyWords (pyStrip (joinSp cur)) = flatWords cur := by
  rw [pyWords_pyStrip, pyWords_joinSp]

lemma pyWords_last_words (ov : Nat) (cur : List Txt) :
    pyWords (last_words ov cur) =
      (flatWords cur).drop ((flatWords cur).length - ov) := by
  unfold last_words
  rw [pyWords_joinSp, flatWords_of_clean, pyWords_joinSp]
  intro w hw
  exact pyWords_clean (joinSp cur) w (List.drop_subset _ _ hw)

lemma length_pyWords_last_words_le (ov : Nat) (cur : List Txt) :
    (pyWords (last_words ov cur)).length ≤ ov := by
  rw [pyWords_last_words, List.length_drop]
  omega

lemma flatWords_pair (a b : Txt) :
    flatWords [a, b] = pyWords a ++ pyWords b := by
  simp [flatWords]

/-- The first chunk that a non-empty buffer eventually produces extends the
words already in the buffer. -/
lemma chunkLoop_head (maxW ov : Nat) (sents : List Txt) :
    ∀ cur cw, cur ≠ [] →
      ∃ c l r, chunkLoop maxW ov sents cur cw = c :: l ∧
        pyWords c = flatWords cur ++ r := by
  induction sents with
  | nil =>
    intro cur cw hcur
    refine ⟨pyStrip (joinSp cur), [], [], ?_, ?_⟩
    · rw [chunkLoop_nil, if_neg hcur]
    · rw [pyWords_joinStrip, List.append_nil]
  | cons s rest ih =>
    intro cur cw hcur
    rw [chunkLoop_cons]
    by_cases hclose : cur ≠ [] ∧ maxW < cw + (pyWords s).length
    · rw [if_pos hclose]
      by_cases hov : 0 < ov
      · rw [if_pos hov]
        exact ⟨pyStrip (joinSp cur), _, [],
          rfl, by rw [pyWords_joinStrip, List.append_nil]⟩
      · rw [if_neg hov]
        exact ⟨pyStrip (joinSp cur), _, [],
          rfl, by rw [pyWords_joinStrip, List.append_nil]⟩
    · rw [if_neg hclose]
      obtain ⟨c, l, r, heq, hw⟩ := ih (cur ++ [s]) (cw + (pyWords s).length) (by simp)
      refine ⟨c, l, (pyWords s ++ []) ++ r, heq, ?_⟩
      rw [hw, flatWords_append]
      simp [flatWords]

/-- The relation between two consecutively produced chunks when overlap is
positive: the later chunk's words start with the trailing overlap words of
the earlier chunk. -/
def overlapRel (ov : Nat) (c1 c2 : Txt) : Prop :=
  (pyWords c2).take ((pyWords c1).drop ((pyWords c1).length - ov)).length
    = (pyWords c1).drop ((pyWords c1).length - ov)

instance (ov : Nat) (c1 c2 : Txt) : Decidable (overlapRel ov c1 c2) := by
  unfold overlapRel; infer_instance

lemma chunkLoop_chain (maxW ov : Nat) (hov : 0 < ov) (sents : List Txt) :
    ∀ cur cw, List.Chain' (overlapRel ov) (chunkLoop maxW ov sents cur cw) := by
  induction sents with
  | nil =>
    intro cur cw
    rw [chunkLoop_nil]
    by_cases hcur : cur = [] <;> simp [hcur]
  | cons s rest ih =>
    intro cur cw
    rw [chunkLoop_cons]
    by_cases hclose : cur ≠ [] ∧ maxW < cw + (pyWords s).length
    · rw [if_pos hclose, if_pos hov]
      have hne2 : ([last_words ov cur, s] : List Txt) ≠ [] := by simp
      obtain ⟨c, l, r, heq, hw⟩ :=
        chunkLoop_head maxW ov rest [last_words ov cur, s]
          ((pyWords (last_words ov cur)).length + (pyWords s).length) hne2
      have hch := ih [last_words ov cur, s]
        ((pyWords (last_words ov cur)).length + (pyWords s).length)
      rw [heq] at hch ⊢
      refine List.Chain'.cons ?_ hch
      unfold overlapRel
      rw [pyWords_joinStrip, hw, flatWords_pair, pyWords_last_words,
        List.append_assoc, List.take_left]
    · rw [if_neg hclose]
      exact ih (cur ++ [s]) (cw + (pyWords s).length)

/-- Word-count invariant: if no sentence exceeds max_words, every chunk the
loop ever produces has at most max_words + overlap words. -/
lemma chunkLoop_bound (maxW ov : Nat) (sents : List Txt) :
    ∀ cur cw, (∀ s ∈ sents, (pyWords s).length ≤ maxW) →
      cw = (flatWords cur).length → cw ≤ maxW + ov →
      ∀ c ∈ chunkLoop maxW ov sents cur cw, (pyWords c).length ≤ maxW + ov := by
  induction sents with
  | nil =>
    intro cur cw _ hcw hle c hc
    rw [chunkLoop_nil] at hc
    by_cases hcur : cur = []
    · rw [if_pos hcur] at hc
      exact absurd hc (List.not_mem_nil c)
    · rw [if_neg hcur] at hc
      rcases List.mem_singleton.1 hc with h
      rw [h, pyWords_joinStrip, ← hcw]
      exact hle
  | cons s rest ih =>
    intro cur cw hs hcw hle c hc
    have hsrest : ∀ u ∈ rest, (pyWords u).length ≤ maxW :=
      fun u hu => hs u (List.mem_cons_of_mem s hu)
    have hshead : (pyWords s).length ≤ maxW := hs s (List.mem_cons_self s rest)
    rw [chunkLoop_cons] at hc
    by_cases hclose : cur ≠ [] ∧ maxW < cw + (pyWords s).length
    · rw [if_pos hclose] at hc
      by_cases hov : 0 < ov
      · rw [if_pos hov] at hc
        rcases List.mem_cons.1 hc with h | h
        · rw [h, pyWords_joinStrip, ← hcw]
          exact hle
        · refine ih [last_words ov cur, s] _ hsrest ?_ ?_ c h
          · rw [flatWords_pair, List.length_append]
          · have := length_pyWords_last_words_le ov cur
            omega
      · rw [if_neg hov] at hc
        rcases List.mem_cons.1 hc with h | h
        · rw [h, pyWords_joinStrip, ← hcw]
          exact hle
        · refine ih [s] _ hsrest ?_ ?_ c h
          · simp [flatWords]
          · omega
    · rw [if_neg hclose] at hc
      refine ih (cur ++ [s]) _ hsrest ?_ ?_ c hc
      · rw [flatWords_append, List.length_append, hcw]
        simp [flatWords]
      · push_neg at hclose
        by_cases hcur : cur = []
        · have : cw = 0 := by rw [hcw, hcur]; rfl
          omega
        · have := hclose hcur
          omega

/-- No sentence is ever split: each input sentence occurs contiguously, as a
word sequence, inside one of the produced chunks. -/
lemma chunkLoop_sent (maxW ov : Nat) (sents : List Txt) :
    ∀ cur cw, ∀ s ∈ sents,
      ∃ c ∈ chunkLoop maxW ov sents cur cw, pyWords s <:+: pyWords c := by
  induction sents with
  | nil =>
    intro _ _ s hs
    exact absurd hs (List.not_mem_nil s)
  | cons s0 rest ih =>
    intro cur cw s hs
    rw [chunkLoop_cons]
    by_cases hclose : cur ≠ [] ∧ maxW < cw + (pyWords s0).length
    · rw [if_pos hclose]
      by_cases hov : 0 < ov
      · rw [if_pos hov]
        rcases List.mem_cons.1 hs with h | h
        · subst h
          obtain ⟨c, l, r, heq, hw⟩ :=
            chunkLoop_head maxW ov rest [last_words ov cur, s]
              ((pyWords (last_words ov cur)).length + (pyWords s).length) (by simp)
          refine ⟨c, ?_, ⟨pyWords (last_words ov cur), r, ?_⟩⟩
          · rw [heq]; exact List.mem_cons_of_mem _ (List.mem_cons_self c l)
          · rw [hw, flatWords_pair, List.append_assoc]
        · obtain ⟨c, hc, hinf⟩ := ih [last_words ov cur, s0] _ s h
          exact ⟨c, List.mem_cons_of_mem _ hc, hinf⟩
      · rw [if_neg hov]
        rcases List.mem_cons.1 hs with h | h
        · subst h
          obtain ⟨c, l, r, heq, hw⟩ :=
            chunkLoop_head maxW ov rest [s] (pyWords s).length (by simp)
          refine ⟨c, ?_, ⟨[], r, ?_⟩⟩
          · rw [heq]; exact List.mem_cons_of_mem _ (List.mem_cons_self c l)
          · rw [hw]; simp [flatWords]
        · obtain ⟨c, hc, hinf⟩ := ih [s0] _ s h
          exact ⟨c, List.mem_cons_of_mem _ hc, hinf⟩
    · rw [if_neg hclose]
      rcases List.mem_cons.1 hs with h | h
      · subst h
        obtain ⟨c, l, r, heq, hw⟩ :=
          chunkLoop_head maxW ov rest (cur ++ [s]) (cw + (pyWords s).length) (by simp)
        refine ⟨c, ?_, ⟨flatWords cur, r, ?_⟩⟩
        · rw [heq]; exact List.mem_cons_self c l
        · rw [hw, flatWords_append]
          simp [flatWords]
      · exact ih (cur ++ [s0]) _ s h

/-! ## Chunker claims -/

/-- Text used to exercise and to refute the chunk word-bound claim. -/
def exText : Txt := "a b c d e. p q r s t. x y.".toList

/-- The chunking scenario text from the specification. -/
def scenarioText : Txt :=
  "Theft is defined in Section 378. It means dishonestly taking property. Section 379 prescribes punishment.".toList

/-- Claim C1 (as amended): every chunk kept by chunk_text has word count at
least min_words; when no single sentence exceeds max_words, every produced
chunk has word count at most max_words + overlap (the original bound of
max_words alone fails, since a chunk can consist of an overlap seed followed
by one sentence); and no sentence is ever split mid-sentence: each
sentence's word sequence occurs contiguously inside some produced chunk, so
an over-long sentence is emitted whole. -/
theorem chunk_text_word_bounds (text : Txt) (maxW ov minW : Nat) :
    (∀ c ∈ chunk_text text maxW ov minW, minW ≤ (pyWords c).length)
    ∧ ((∀ s ∈ simple_sentences text, (pyWords s).length ≤ maxW) →
        ∀ c ∈ chunk_core (simple_sentences text) maxW ov,
          (pyWords c).length ≤ maxW + ov)
    ∧ (∀ s ∈ simple_sentences text,
        ∃ c ∈ chunk_core (simple_sentences text) maxW ov,
          pyWords s <:+: pyWords c) := by
  refine ⟨?_, ?_, ?_⟩
  · intro c hc
    exact of_decide_eq_true (List.mem_filter.1 hc).2
  · intro hs c hc
    exact chunkLoop_bound maxW ov (simple_sentences text) [] 0 hs rfl
      (Nat.zero_le _) c hc
  · intro s hs
    exact chunkLoop_sent maxW ov (simple_sentences text) [] 0 s hs

/-- Claim C1 counterexample: with max_words = 5, overlap = 3, the text
exText has no sentence longer than 5 words, yet the middle produced chunk
(index 1 of 3, so not the last) has 8 > 5 words: the claimed bound
word count ≤ max_words fails for a mid-sequence chunk that contains no
over-long sentence. -/
theorem chunk_text_word_bounds_counterexample :
    (∀ s ∈ simple_sentences exText, (pyWords s).length ≤ 5)
    ∧ (chunk_core (simple_sentences exText) 5 3).length = 3
    ∧ 5 < (pyWords ((chunk_core (simple_sentences exText) 5 3).get
        ⟨1, by decide⟩)).length := by
  refine ⟨by decide, by decide, by decide⟩

/-- Claim C1 witness: the amended theorem applied to exText with
max_words = 5, overlap = 3, min_words = 1. -/
theorem chunk_text_word_bounds_witness :
    (1 ≤ (pyWords "a b c d e.".toList).length)
    ∧ ((pyWords "c d e. p q r s t.".toList).length ≤ 5 + 3)
    ∧ ∃ c ∈ chunk_core (simple_sentences exText) 5 3,
        pyWords "a b c d e.".toList <:+: pyWords c := by
  refine ⟨?_, ?_, ?_⟩
  · exact (chunk_text_word_bounds exText 5 3 1).1 _ (by decide)
  · exact (chunk_text_word_bounds exText 5 3 1).2.1 (by decide) _ (by decide)
  · exact (chunk_text_word_bounds exText 5 3 1).2.2 _ (by decide)

/-- Claim C2: for any two consecutively produced chunks of one continuous
text (chunk_core lists the chunks appended by chunk_text, in production
order, before the minimum-size filter), with overlap > 0, the trailing
overlap words of the earlier chunk are exactly the leading words of the
later chunk. -/
theorem chunk_text_overlap (text : Txt) (maxW ov : Nat) (hov : 0 < ov)
    (i : Nat) (h : i + 1 < (chunk_core (simple_sentences text) maxW ov).length) :
    overlapRel ov
      ((chunk_core (simple_sentences text) maxW ov).get ⟨i, by omega⟩)
      ((chunk_core (simple_sentences text) maxW ov).get ⟨i + 1, h⟩) := by
  have hch : List.Chain' (overlapRel ov) (chunk_core (simple_sentences text) maxW ov) :=
    chunkLoop_chain maxW ov hov (simple_sentences text) [] 0
  exact List.chain'_iff_get.1 hch i (by omega)

/-- Claim C2 witness: the overlap property applied to the scenario text with
max_words = 10, overlap = 3, at the first pair of produced chunks. -/
theorem chunk_text_overlap_witness :
    overlapRel 3
      ((chunk_core (simple_sentences scenarioText) 10 3).get ⟨0, by decide⟩)
      ((chunk_core (simple_sentences scenarioText) 10 3).get ⟨1, by decide⟩) :=
  chunk_text_overlap scenarioText 10 3 (by decide) 0 (by decide)

/-- Claim C3 counterexample: chunking the scenario text with max_words = 10,
overlap = 3, min_words = 1 produces exactly 3 chunks, not 2 as claimed. -/
theorem chunk_scenario_counterexample :
    (chunk_text scenarioText 10 3 1).length = 3 ∧
      ¬ (chunk_text scenarioText 10 3 1).length = 2 := by
  refine ⟨by decide, by decide⟩

/-- Claim C3 (as amended): the scenario text yields exactly three chunks:
the first is the first sentence alone (already 6 + 5 > 10 words with the
second), the second starts with the 3-word overlap tail "in Section 378."
and ends with "...taking property.", and the third starts with the 3-word
overlap tail "dishonestly taking property." before continuing into the
punishment sentence. -/
theorem chunk_scenario_amended :
    chunk_text scenarioText 10 3 1 =
      ["Theft is defined in Section 378.".toList,
        "in Section 378. It means dishonestly taking property.".toList,
        "dishonestly taking property. Section 379 prescribes punishment.".toList] := by
  decide

/-! ## Substring test (Python's `in` operator on strings) -/

/-- Whether pat is a prefix of t. -/
def txtStartsWith : Txt → Txt → Bool
  | [], _ => true
  | _ :: _, [] => false
  | p :: ps, c :: cs => p == c && txtStartsWith ps cs

/-- Python's substring test `pat in t`. -/
def txtContains (pat : Txt) : Txt → Bool
  | [] => txtStartsWith pat []
  | c :: cs => txtStartsWith pat (c :: cs) || txtContains pat cs

/-- Python str.lower(), restricted to ASCII case mapping. -/
def pyLower (t : Txt) : Txt := t.map Char.toLower

/-! ## Retriever / re-ranker (EnhancedLegalAssistant.retrieve_context) -/

/-- A raw index match: similarity score plus the metadata fields the
pipeline reads (source_file and text). -/
structure PMatch where
  score : ℚ
  source_file : Txt
  text : Txt
deriving DecidableEq

/-- A match after re-ranking annotated it with relevance_boost and
adjusted_score. -/
structure AnnMatch where
  score : ℚ
  source_file : Txt
  text : Txt
  relevance_boost : ℚ
  adjusted_score : ℚ
deriving DecidableEq

/-- The fixed legal keyword list of retrieve_context. -/
def legal_keywords : List Txt :=
  ["section".toList, "ipc".toList, "punishment".toList, "offense".toList,
    "crime".toList, "law".toList, "act".toList]

/-- How many legal keywords occur in the lower-cased text. -/
def keywordCount (t : Txt) : Nat :=
  (legal_keywords.filter (fun kw => txtContains kw (pyLower t))).length

/-- The re-ranking annotation: relevance_boost = keyword count × 0.1,
adjusted_score = score + relevance_boost. -/
def annotate (m : PMatch) : AnnMatch :=
  ⟨m.score, m.source_file, m.text, (keywordCount m.text : ℚ) * (0.1 : ℚ),
    m.score + (keywordCount m.text : ℚ) * (0.1 : ℚ)⟩

/-- Sort key order of the re-ranker: descending adjusted score (a before b
when a's adjusted score is at least b's). -/
def adjGE (a b : AnnMatch) : Prop := b.adjusted_score ≤ a.adjusted_score

instance : DecidableRel adjGE :=
  fun a b => inferInstanceAs (Decidable (b.adjusted_score ≤ a.adjusted_score))

instance : IsTotal AnnMatch adjGE :=
  ⟨fun a b => (le_total a.adjusted_score b.adjusted_score).symm⟩

instance : IsTrans AnnMatch adjGE :=
  ⟨fun _ _ _ hab hbc => le_trans hbc hab⟩

/-- retrieve_context: query the index for 2 × top_k candidates, annotate
each with the keyword boost, sort by adjusted score descending (stable, as
Python's sorted), truncate to top_k.  The index search is an oracle
function from the requested candidate count to the match list. -/
def retrieve_context (search : Nat → List PMatch) (top_k : Nat) : List AnnMatch :=
  (((search (top_k * 2)).map annotate).insertionSort adjGE).take top_k

lemma filter_orderedInsert_adj (c : ℚ) (a : AnnMatch) (l : List AnnMatch) :
    (List.orderedInsert adjGE a l).filter (fun m => decide (m.adjusted_score = c)) =
      if a.adjusted_score = c then
        a :: l.filter (fun m => decide (m.adjusted_score = c))
      else l.filter (fun m => decide (m.adjusted_score = c)) := by
  induction l with
  | nil =>
    by_cases h : a.adjusted_score = c <;> simp [List.orderedInsert, List.filter_cons, h]
  | cons b t ih =>
    show (if adjGE a b then a :: b :: t else b :: List.orderedInsert adjGE a t).filter _ = _
    by_cases hr : adjGE a b
    · rw [if_pos hr]
      by_cases h : a.adjusted_score = c <;> by_cases hb : b.adjusted_score = c <;>
        simp [List.filter_cons, h, hb]
    · rw [if_neg hr]
      by_cases h : a.adjusted_score = c
      · have hb : ¬ b.adjusted_score = c := by
          intro hbc
          exact hr (le_of_eq (hbc.trans h.symm))
        rw [List.filter_cons, List.filter_cons, ih, if_pos h]
        simp [h, hb]
      · rw [List.filter_cons, List.filter_cons, ih, if_neg h, if_neg h]

/-- Stability of the re-rank sort: for every adjusted-score value, the
matches carrying that value appear in the sorted list exactly as they
appeared, and in the order they appeared, in the input. -/
lemma filter_insertionSort_adj (c : ℚ) (l : List AnnMatch) :
    (l.insertionSort adjGE).filter (fun m => decide (m.adjusted_score = c)) =
      l.filter (fun m => decide (m.adjusted_score = c)) := by
  induction l with
  | nil => rfl
  | cons a t ih =>
    show (List.orderedInsert adjGE a (t.insertionSort adjGE)).filter _ = _
    rw [filter_orderedInsert_adj, List.filter_cons]
    by_cases h : a.adjusted_score = c <;> simp [h, ih]

/-- Claim C4: retrieve_context consults the index search only for
2 × top_k candidates (two oracles agreeing there produce identical
results), and every annotated candidate carries
relevance_boost = 0.1 × (number of legal keywords in its text) and
adjusted_score = raw score + relevance_boost; the output consists of such
annotated candidates. -/
theorem retrieve_overfetch_boost (search search2 : Nat → List PMatch) (k : Nat)
    (h : search (k * 2) = search2 (k * 2)) :
    retrieve_context search k = retrieve_context search2 k
    ∧ (∀ m ∈ (search (k * 2)).map annotate,
        m.relevance_boost = (keywordCount m.text : ℚ) * (0.1 : ℚ)
          ∧ m.adjusted_score = m.score + m.relevance_boost)
    ∧ (∀ m ∈ retrieve_context search k, m ∈ (search (k * 2)).map annotate) := by
  refine ⟨?_, ?_, ?_⟩
  · unfold retrieve_context
    rw [h]
  · intro m hm
    obtain ⟨m0, _, hm0⟩ := List.mem_map.1 hm
    subst hm0
    exact ⟨rfl, rfl⟩
  · intro m hm
    have h1 : m ∈ ((search (k * 2)).map annotate).insertionSort adjGE :=
      List.take_subset _ _ hm
    exact (List.perm_insertionSort adjGE _).subset h1

/-- A concrete corpus of raw matches used to witness the retrieval claims. -/
def sampleMatches : List PMatch :=
  [⟨1/2, "a.pdf".toList, "General text with no keywords".toList⟩,
    ⟨9/20, "b.pdf".toList, "Punishment under IPC Section 378".toList⟩,
    ⟨2/5, "c.pdf".toList, "crime and law act".toList⟩]

/-- A search oracle returning the sample corpus for any requested count. -/
def sampleSearch : Nat → List PMatch := fun _ => sampleMatches

/-- Claim C4 witness: the over-fetch/boost theorem applied to the sample
search oracle at top_k = 2. -/
theorem retrieve_overfetch_boost_witness :
    retrieve_context sampleSearch 2 = retrieve_context sampleSearch 2
    ∧ ((annotate ⟨9/20, "b.pdf".toList, "Punishment under IPC Section 378".toList⟩).relevance_boost
        = (keywordCount "Punishment under IPC Section 378".toList : ℚ) * (0.1 : ℚ)
      ∧ (annotate ⟨9/20, "b.pdf".toList, "Punishment under IPC Section 378".toList⟩).adjusted_score
        = (annotate ⟨9/20, "b.pdf".toList, "Punishment under IPC Section 378".toList⟩).score
          + (annotate ⟨9/20, "b.pdf".toList, "Punishment under IPC Section 378".toList⟩).relevance_boost) := by
  refine ⟨(retrieve_overfetch_boost sampleSearch sampleSearch 2 rfl).1, ?_⟩
  refine (retrieve_overfetch_boost sampleSearch sampleSearch 2 rfl).2.1 _ ?_
  exact List.mem_map_of_mem annotate (by simp [sampleSearch, sampleMatches])

/-- Claim C5: the retrieval output is the stable descending sort of the
annotated candidates truncated to top_k: its length is
min(top_k, number of raw candidates); adjusted scores are non-increasing
across the output; the sorted list is a permutation of the candidates; and
ties keep their original relative order (for every score value, filtering
the sorted list to that adjusted score gives exactly the input order). -/
theorem retrieve_sorted_truncated (search : Nat → List PMatch) (k : Nat) :
    (retrieve_context search k).length = min k ((search (k * 2)).map annotate).length
    ∧ List.Sorted adjGE (retrieve_context search k)
    ∧ (((search (k * 2)).map annotate).insertionSort adjGE).Perm
        ((search (k * 2)).map annotate)
    ∧ ∀ c : ℚ,
        (((search (k * 2)).map annotate).insertionSort adjGE).filter
            (fun m => decide (m.adjusted_score = c)) =
          ((search (k * 2)).map annotate).filter
            (fun m => decide (m.adjusted_score = c)) := by
  refine ⟨?_, ?_, ?_, ?_⟩
  · unfold retrieve_context
    rw [List.length_take, (List.perm_insertionSort adjGE _).length_eq]
  · exact List.Pairwise.sublist (List.take_sublist _ _)
      (List.sorted_insertionSort adjGE _)
  · exact List.perm_insertionSort adjGE _
  · intro c
    exact filter_insertionSort_adj c _

/-! ## Confidence estimator (EnhancedLegalAssistant._assess_confidence) -/

/-- The four confidence labels. -/
inductive Confidence where
  | very_low
  | low
  | medium
  | high
deriving DecidableEq

/-- _assess_confidence: very_low on an empty match list, otherwise classify
the arithmetic mean of the raw scores with inclusive thresholds
0.8 / 0.6 / 0.4. -/
def assess_confidence (ms : List AnnMatch) : Confidence :=
  if ms = [] then Confidence.very_low
  else
    let avg : ℚ := ((ms.map (fun m => m.score)).sum) / (ms.length : ℚ)
    if (0.8 : ℚ) ≤ avg then Confidence.high
    else if (0.6 : ℚ) ≤ avg then Confidence.medium
    else if (0.4 : ℚ) ≤ avg then Confidence.low
    else Confidence.very_low

/-- An AnnMatch holding only a score, for boundary tests. -/
def scoreOnly (q : ℚ) : AnnMatch := ⟨q, [], [], 0, 0⟩

/-- Claim C6: the confidence estimator returns very_low on an empty match
list; on a non-empty list it classifies the mean of the raw scores with
inclusive lower bounds 0.8 / 0.6 / 0.4; the exact boundary means 0.8, 0.6,
0.4 give high, medium, low, and a single match with score 0.95 gives
high. -/
theorem assess_confidence_spec :
    assess_confidence [] = Confidence.very_low
    ∧ (∀ ms : List AnnMatch, ms ≠ [] →
        (((0.8 : ℚ) ≤ ((ms.map (fun m => m.score)).sum) / (ms.length : ℚ) →
            assess_confidence ms = Confidence.high)
          ∧ ((0.6 : ℚ) ≤ ((ms.map (fun m => m.score)).sum) / (ms.length : ℚ)
              ∧ ((ms.map (fun m => m.score)).sum) / (ms.length : ℚ) < (0.8 : ℚ) →
            assess_confidence ms = Confidence.medium)
          ∧ ((0.4 : ℚ) ≤ ((ms.map (fun m => m.score)).sum) / (ms.length : ℚ)
              ∧ ((ms.map (fun m => m.score)).sum) / (ms.length : ℚ) < (0.6 : ℚ) →
            assess_confidence ms = Confidence.low)
          ∧ (((ms.map (fun m => m.score)).sum) / (ms.length : ℚ) < (0.4 : ℚ) →
            assess_confidence ms = Confidence.very_low)))
    ∧ assess_confidence [scoreOnly (4/5)] = Confidence.high
    ∧ assess_confidence [scoreOnly (3/5)] = Confidence.medium
    ∧ assess_confidence [scoreOnly (2/5)] = Confidence.low
    ∧ assess_confidence [scoreOnly (19/20)] = Confidence.high := by
  have key : ∀ ms : List AnnMatch, ms ≠ [] →
      (((0.8 : ℚ) ≤ ((ms.map (fun m => m.score)).sum) / (ms.length : ℚ) →
          assess_confidence ms = Confidence.high)
        ∧ ((0.6 : ℚ) ≤ ((ms.map (fun m => m.score)).sum) / (ms.length : ℚ)
            ∧ ((ms.map (fun m => m.score)).sum) / (ms.length : ℚ) < (0.8 : ℚ) →
          assess_confidence ms = Confidence.medium)
        ∧ ((0.4 : ℚ) ≤ ((ms.map (fun m => m.score)).sum) / (ms.length : ℚ)
            ∧ ((ms.map (fun m => m.score)).sum) / (ms.length : ℚ) < (0.6 : ℚ) →
          assess_confidence ms = Confidence.low)
        ∧ (((ms.map (fun m => m.score)).sum) / (ms.length : ℚ) < (0.4 : ℚ) →
          assess_confidence ms = Confidence.very_low)) := by
    intro ms hne
    unfold assess_confidence
    rw [if_neg hne]
    refine ⟨?_, ?_, ?_, ?_⟩
    · intro h08
      rw [if_pos h08]
    · rintro ⟨h06, hlt⟩
      rw [if_neg (not_le.2 hlt), if_pos h06]
    · rintro ⟨h04, hlt⟩
      rw [if_neg (not_le.2 (hlt.trans_le (by norm_num))),
        if_neg (not_le.2 hlt), if_pos h04]
    · intro hlt
      rw [if_neg (not_le.2 (hlt.trans_le (by norm_num))),
        if_neg (not_le.2 (hlt.trans_le (by norm_num))), if_neg (not_le.2 hlt)]
  refine ⟨rfl, key, ?_, ?_, ?_, ?_⟩
  · exact (key _ (by simp)).1 (by simp [scoreOnly]; norm_num)
  · exact (key _ (by simp)).2.1 ⟨by simp [scoreOnly]; norm_num, by simp [scoreOnly]; norm_num⟩
  · exact (key _ (by simp)).2.2.1 ⟨by simp [scoreOnly]; norm_num, by simp [scoreOnly]; norm_num⟩
  · exact (key _ (by simp)).1 (by simp [scoreOnly]; norm_num)

/-- Claim C6 witness: the classifier theorem applied to a single match with
score 0.7, landing in the medium band. -/
theorem assess_confidence_spec_witness :
    assess_confidence [scoreOnly (7/10)] = Confidence.medium := by
  refine (assess_confidence_spec.2.1 [scoreOnly (7/10)] (by simp)).2.1 ?_
  constructor <;> simp [scoreOnly] <;> norm_num

/-! ## Generative strategy (EnhancedLegalAssistant.generate_openai_response) -/

/-- The fixed greeting phrase list. -/
def simple_greetings : List Txt :=
  ["hi".toList, "hello".toList, "hey".toList, "good morning".toList,
    "good evening".toList, "how are you".toList]

/-- The greeting short-circuit test: a greeting phrase occurs in the
lower-cased, stripped query AND the query has at most 3 whitespace
tokens. -/
def is_greeting_query (query : Txt) : Bool :=
  simple_greetings.any (fun g => txtContains g (pyStrip (pyLower query)))
    && decide ((pyWords query).length ≤ 3)

/-- One context block: "Document {i} ({source}):\n{text}". -/
def context_block (i : Nat) (m : AnnMatch) : Txt :=
  "Document ".toList ++ (toString i).toList ++ " (".toList ++ m.source_file
    ++ "):\n".toList ++ m.text

/-- The joined context, or the fixed placeholder when no matches exist. -/
def build_context (ms : List AnnMatch) : Txt :=
  let blocks := ms.enum.map (fun p => context_block (p.1 + 1) p.2)
  if blocks = [] then "No relevant legal documents found.".toList
  else joinWith "\n\n".toList blocks

/-- The user prompt sent to the language model: the bare question for a
greeting query, otherwise the document context followed by the question. -/
def build_user_prompt (query : Txt) (ms : List AnnMatch) : Txt :=
  if is_greeting_query query then "User Question: ".toList ++ query
  else "Legal Documents:\n".toList ++ build_context ms
    ++ "\n\nUser Question: ".toList ++ query

/-- Claim C7 counterexample: the three-token query "hi Legal Documents:"
is treated as a greeting (it contains "hi" and has 3 tokens), yet the user
prompt built for it does contain the literal "Legal Documents:", refuting
the claim that the prompt of every greeting query is free of that
header. -/
theorem greeting_header_counterexample :
    is_greeting_query "hi Legal Documents:".toList = true
    ∧ txtContains "Legal Documents:".toList
        (build_user_prompt "hi Legal Documents:".toList []) = true := by
  refine ⟨by decide, by decide⟩

/-- Claim C7 (as amended): a query is a greeting iff its lower-cased
stripped form contains a greeting phrase and it has at most 3 whitespace
tokens; for every greeting query the context-building step is skipped and
the user prompt is exactly "User Question: " followed by the bare query (so
it contains "Legal Documents:" only when the query itself does); in
particular for the query "hi" the prompt is "User Question: hi" and carries
no "Legal Documents:" header, for any match list. -/
theorem greeting_bypasses_context (query : Txt) (ms : List AnnMatch) :
    (is_greeting_query query = true ↔
      (simple_greetings.any (fun g => txtContains g (pyStrip (pyLower query))) = true
        ∧ (pyWords query).length ≤ 3))
    ∧ (is_greeting_query query = true →
        build_user_prompt query ms = "User Question: ".toList ++ query)
    ∧ build_user_prompt "hi".toList ms = "User Question: hi".toList
    ∧ txtContains "Legal Documents:".toList
        (build_user_prompt "hi".toList ms) = false := by
  have h3 : build_user_prompt "hi".toList ms = "User Question: hi".toList := by
    unfold build_user_prompt
    rw [if_pos (by decide : is_greeting_query "hi".toList = true)]
    decide
  refine ⟨?_, ?_, h3, ?_⟩
  · unfold is_greeting_query
    rw [Bool.and_eq_true, decide_eq_true_eq]
  · intro hg
    unfold build_user_prompt
    rw [if_pos hg]
  · rw [h3]
    decide

/-- Claim C7 witness: the amended theorem applied to the greeting query
"hello" with an empty match list. -/
theorem greeting_bypasses_context_witness :
    build_user_prompt "hello".toList [] = "User Question: ".toList ++ "hello".toList :=
  (greeting_bypasses_context "hello".toList []).2.1 (by decide)

/-! ## Error classification of the language-model call -/

/-- Error message for an unavailable OpenAI client. -/
def unavailable_err_msg : Txt :=
  "⚠️ OpenAI Mode Error: OpenAI API is not available. Please check your API key or switch to Local Mode.".toList

/-- Error message for an invalid or expired key. -/
def auth_err_msg : Txt :=
  "⚠️ OpenAI API Key Error: Your API key is invalid or expired. Switch to Local Mode or update your API key.".toList

/-- Error message for exhausted quota or billing problems. -/
def quota_err_msg : Txt :=
  "⚠️ OpenAI Quota Error: No credits available. Switch to Local Mode or add billing.".toList

/-- Error message for rate limiting. -/
def rate_err_msg : Txt :=
  "⚠️ Rate Limit: Too many requests. Try Local Mode or wait a moment.".toList

/-- Prefix of the generic error message, completed with the raw error
text. -/
def generic_err_head : Txt := "⚠️ OpenAI API Error: ".toList

/-- The except-branch of generate_openai_response: map the exception text
to one of four user-facing messages. -/
def classify_openai_error (e : Txt) : Txt :=
  if txtContains "401".toList e || txtContains "authentication".toList (pyLower e)
      || txtContains "api key".toList (pyLower e) then auth_err_msg
  else if txtContains "quota".toList (pyLower e)
      || txtContains "billing".toList (pyLower e) then quota_err_msg
  else if txtContains "rate_limit".toList (pyLower e) then rate_err_msg
  else generic_err_head ++ e

/-- The result dictionary of the generative strategy: either a success
payload (answer, per-match source list, confidence, context count) or an
error message under the error key. -/
inductive QAResponse where
  | success (answer : Txt) (sources : List Txt) (confidence : Confidence)
      (context_used : Nat)
  | failure (error : Txt)
deriving DecidableEq

/-- generate_openai_response: fail fast when the client is unavailable,
otherwise prompt the language model (an oracle from the user prompt to
either an answer or an exception text) and wrap its outcome. -/
def generate_openai_response (openai_available : Bool) (llm : Txt → Except Txt Txt)
    (query : Txt) (ms : List AnnMatch) : QAResponse :=
  if !openai_available then QAResponse.failure unavailable_err_msg
  else
    match llm (build_user_prompt query ms) with
    | Except.ok answer =>
        QAResponse.success (pyStrip answer) (ms.map (fun m => m.source_file))
          (assess_confidence ms) ms.length
    | Except.error e => QAResponse.failure (classify_openai_error e)

lemma append_ne_of_take_ne (p e m : Txt) (n : Nat) (hn : n ≤ p.length)
    (h : p.take n ≠ m.take n) : p ++ e ≠ m := by
  intro heq
  apply h
  rw [← List.take_append_of_le_length hn, heq]

/-- Claim C8: whenever the external language-model call fails, the
generative strategy returns a failure value carrying the classified
message; the classification always lands on one of four messages
(authentication, quota, rate-limit, or generic), which are pairwise
distinct; and for any model oracle whatsoever the caller receives either a
success payload or an error message, never anything else. -/
theorem openai_error_classified (e query : Txt) (ms : List AnnMatch)
    (llm : Txt → Except Txt Txt) :
    generate_openai_response true (fun _ => Except.error e) query ms
        = QAResponse.failure (classify_openai_error e)
    ∧ (classify_openai_error e = auth_err_msg
        ∨ classify_openai_error e = quota_err_msg
        ∨ classify_openai_error e = rate_err_msg
        ∨ classify_openai_error e = generic_err_head ++ e)
    ∧ (auth_err_msg ≠ quota_err_msg ∧ auth_err_msg ≠ rate_err_msg
        ∧ quota_err_msg ≠ rate_err_msg
        ∧ generic_err_head ++ e ≠ auth_err_msg
        ∧ generic_err_head ++ e ≠ quota_err_msg
        ∧ generic_err_head ++ e ≠ rate_err_msg)
    ∧ ((∃ a s cf n, generate_openai_response true llm query ms
          = QAResponse.success a s cf n)
      ∨ (∃ msg, generate_openai_response true llm query ms
          = QAResponse.failure msg)) := by
  refine ⟨rfl, ?_, ?_, ?_⟩
  · unfold classify_openai_error
    split_ifs with h1 h2 h3
    · exact Or.inl rfl
    · exact Or.inr (Or.inl rfl)
    · exact Or.inr (Or.inr (Or.inl rfl))
    · exact Or.inr (Or.inr (Or.inr rfl))
  · refine ⟨by decide, by decide, by decide, ?_, ?_, ?_⟩
    · exact append_ne_of_take_ne _ e _ 15 (by decide) (by decide)
    · exact append_ne_of_take_ne _ e _ 11 (by decide) (by decide)
    · exact append_ne_of_take_ne _ e _ 4 (by decide) (by decide)
  · unfold generate_openai_response
    cases hllm : llm (build_user_prompt query ms) with
    | ok a => exact Or.inl ⟨_, _, _, _, rfl⟩
    | error e2 => exact Or.inr ⟨_, rfl⟩

/-! ## Text normalizer (src/scripts/normalize.py) -/

/-- Word characters of the regex \w, restricted to ASCII. -/
def isWordChar (c : Char) : Bool := c.isAlphanum || c = '_'

/-- Scanner for re.sub of "(\w+)-\n(\w+)" with replacement "\1\2": a
maximal word run followed by "-" and a newline and another word run loses
the "-" and the newline.  The fuel argument starts at the text length and
strictly exceeds the characters still to scan, so it never runs out. -/
def subHyphenGo : Nat → Txt → Txt
  | 0, t => t
  | _ + 1, [] => []
  | n + 1, c :: cs =>
    if isWordChar c then
      match List.dropWhile isWordChar (c :: cs) with
      | '-' :: '\n' :: d :: ds =>
        if isWordChar d then
          List.takeWhile isWordChar (c :: cs) ++ List.takeWhile isWordChar (d :: ds)
            ++ subHyphenGo n (List.dropWhile isWordChar (d :: ds))
        else
          List.takeWhile isWordChar (c :: cs)
            ++ subHyphenGo n (List.dropWhile isWordChar (c :: cs))
      | _ =>
        List.takeWhile isWordChar (c :: cs)
          ++ subHyphenGo n (List.dropWhile isWordChar (c :: cs))
    else c :: subHyphenGo n cs

/-- First substitution of fix_hyphenation: merge hyphenated line breaks. -/
def subHyphen (t : Txt) : Txt := subHyphenGo t.length t

/-- Whether a text starts with a newline. -/
def headIsNL : Txt → Bool
  | '\n' :: _ => true
  | _ => false

/-- Scanner for re.sub of "(?<!\n)\n(?!\n)" with replacement " ": a newline
neither preceded nor followed by a newline becomes a space.  The flag
records whether the previous original character was a newline. -/
def subSingleNLGo : Bool → Txt → Txt
  | _, [] => []
  | prevNL, c :: cs =>
    if c == '\n' && !prevNL && !headIsNL cs then ' ' :: subSingleNLGo true cs
    else c :: subSingleNLGo (c == '\n') cs

/-- Second substitution of fix_hyphenation: lone newlines become spaces. -/
def subSingleNL (t : Txt) : Txt := subSingleNLGo false t

/-- Scanner for re.sub of "\n{3,}" with replacement "\n\n". -/
def collapseNLGo : Nat → Txt → Txt
  | 0, t => t
  | _ + 1, [] => []
  | n + 1, c :: cs =>
    if c == '\n' then
      (if 3 ≤ (List.takeWhile (fun d => d == '\n') (c :: cs)).length then ['\n', '\n']
       else List.takeWhile (fun d => d == '\n') (c :: cs))
        ++ collapseNLGo n (List.dropWhile (fun d => d == '\n') (c :: cs))
    else c :: collapseNLGo n cs

/-- Third substitution of fix_hyphenation: 3+ newlines become exactly 2. -/
def collapseNewlines (t : Txt) : Txt := collapseNLGo t.length t

/-- Space or tab, the character class of the fourth substitution. -/
def isSpaceTab (c : Char) : Bool := c == ' ' || c == '\t'

/-- Scanner for re.sub of "[ \t]{2,}" with replacement " ". -/
def collapseSTGo : Nat → Txt → Txt
  | 0, t => t
  | _ + 1, [] => []
  | n + 1, c :: cs =>
    if isSpaceTab c then
      (if 2 ≤ (List.takeWhile isSpaceTab (c :: cs)).length then [' ']
       else List.takeWhile isSpaceTab (c :: cs))
        ++ collapseSTGo n (List.dropWhile isSpaceTab (c :: cs))
    else c :: collapseSTGo n cs

/-- Fourth substitution of fix_hyphenation: runs of 2+ spaces or tabs
become one space. -/
def collapseSpaceTab (t : Txt) : Txt := collapseSTGo t.length t

/-- fix_hyphenation from normalize.py: the four regex substitutions in
order, then a final strip. -/
def fix_hyphenation (t : Txt) : Txt :=
  pyStrip (collapseSpaceTab (collapseNewlines (subSingleNL (subHyphen t))))

/-- Scanner for Python str.replace(pat, ""): remove occurrences of pat left
to right.  Fuel as in subHyphenGo. -/
def pyRemoveAllGo (pat : Txt) : Nat → Txt → Txt
  | 0, t => t
  | _ + 1, [] => []
  | n + 1, c :: cs =>
    if !pat.isEmpty && txtStartsWith pat (c :: cs) then
      pyRemoveAllGo pat n (List.drop pat.length (c :: cs))
    else c :: pyRemoveAllGo pat n cs

/-- Python text.replace(pat, ""). -/
def pyReplaceEmpty (pat t : Txt) : Txt := pyRemoveAllGo pat t.length t

/-- remove_candidates_from_page: delete every candidate occurring in the
page, in candidate order. -/
def remove_candidates_from_page (t : Txt) (cands : List Txt) : Txt :=
  cands.foldl
    (fun text c => if !c.isEmpty && txtContains c text then pyReplaceEmpty c text else text) t

/-- Python str.splitlines (accumulator reversed); recognizes \r\n, \r and
\n breaks (the rarer Unicode line boundaries Python also splits on are
outside the modelled ASCII corpus) and emits no trailing empty line. -/
def splitlinesGo : Txt → Txt → List Txt
  | acc, [] => if acc = [] then [] else [acc.reverse]
  | acc, '\r' :: '\n' :: rest => acc.reverse :: splitlinesGo [] rest
  | acc, '\r' :: rest => acc.reverse :: splitlinesGo [] rest
  | acc, '\n' :: rest => acc.reverse :: splitlinesGo [] rest
  | acc, c :: rest => splitlinesGo (c :: acc) rest

/-- Python str.splitlines(). -/
def pySplitlines (t : Txt) : List Txt := splitlinesGo [] t

/-- First-occurrence-ordered list of distinct values, mirroring the
iteration order of a Python Counter built from the list. -/
def firstOccur (l : List Txt) : List Txt :=
  l.foldl (fun acc h => if h ∈ acc then acc else acc ++ [h]) []

/-- The head considered by the header detector: first two lines, joined and
stripped. -/
def headOf (p : Txt) : Txt := pyStrip (joinWith ['\n'] ((pySplitlines p).take 2))

/-- The foot considered by the footer detector: last two lines, joined and
stripped; empty when the page has no lines. -/
def footOf (p : Txt) : Txt :=
  if pySplitlines p = [] then []
  else pyStrip (joinWith ['\n'] ((pySplitlines p).drop ((pySplitlines p).length - 2)))

/-- detect_repeating_header_footer with the default look_lines = 2,
threshold = 0.8: candidate heads and foots occurring on at least 80% of the
pages. -/
def detect_repeating_header_footer (pages : List Txt) : List Txt × List Txt :=
  let heads := pages.map headOf
  let foots := pages.map footOf
  let n : Nat := max 1 pages.length
  let headNE := heads.filter (fun h => !h.isEmpty)
  let footNE := foots.filter (fun f => !f.isEmpty)
  ((firstOccur headNE).filter (fun h => decide ((0.8 : ℚ) ≤ (headNE.count h : ℚ) / (n : ℚ))),
    (firstOccur footNE).filter (fun f => decide ((0.8 : ℚ) ≤ (footNE.count f : ℚ) / (n : ℚ))))

/-- The per-document page normalization of normalize_file: strip detected
headers, then detected footers, then fix hyphenation, on every page in
order. -/
def normalize_pages (pages : List Txt) : List Txt :=
  pages.map (fun p =>
    fix_hyphenation (remove_candidates_from_page
      (remove_candidates_from_page p (detect_repeating_header_footer pages).1)
      (detect_repeating_header_footer pages).2))

lemma length_subHyphenGo_le : ∀ (n : Nat) (t : Txt), (subHyphenGo n t).length ≤ t.length := by
  intro n
  induction n with
  | zero => intro t; exact le_refl _
  | succ n ih =>
    intro t
    match t with
    | [] => exact le_refl _
    | c :: cs =>
      show (subHyphenGo (n + 1) (c :: cs)).length ≤ (c :: cs).length
      unfold subHyphenGo
      by_cases hw : isWordChar c
      · rw [if_pos hw]
        have e1 : (List.takeWhile isWordChar (c :: cs)).length
            + (List.dropWhile isWordChar (c :: cs)).length = (c :: cs).length := by
          rw [← List.length_append, List.takeWhile_append_dropWhile]
        split
        · rename_i d ds heq
          by_cases hd : isWordChar d
          · rw [if_pos hd]
            have e2 : (List.takeWhile isWordChar (d :: ds)).length
                + (List.dropWhile isWordChar (d :: ds)).length = (d :: ds).length := by
              rw [← List.length_append, List.takeWhile_append_dropWhile]
            have e3 := ih (List.dropWhile isWordChar (d :: ds))
            have e4 : (List.dropWhile isWordChar (c :: cs)).length = (d :: ds).length + 2 := by
              rw [heq]; rfl
            simp only [List.length_append]
            omega
          · rw [if_neg hd]
            have e3 := ih (List.dropWhile isWordChar (c :: cs))
            simp only [List.length_append]
            omega
        · have e3 := ih (List.dropWhile isWordChar (c :: cs))
          simp only [List.length_append]
          omega
      · rw [if_neg hw]
        have := ih cs
        simp only [List.length_cons]
        omega

lemma length_subSingleNLGo (t : Txt) : ∀ b, (subSingleNLGo b t).length = t.length := by
  induction t with
  | nil => intro b; rfl
  | cons c cs ih =>
    intro b
    unfold subSingleNLGo
    split
    · simp [ih]
    · simp [ih]

lemma length_collapseNLGo_le : ∀ (n : Nat) (t : Txt), (collapseNLGo n t).length ≤ t.length := by
  intro n
  induction n with
  | zero => intro t; exact le_refl _
  | succ n ih =>
    intro t
    match t with
    | [] => exact le_refl _
    | c :: cs =>
      show (collapseNLGo (n + 1) (c :: cs)).length ≤ (c :: cs).length
      unfold collapseNLGo
      by_cases hc : c == '\n'
      · rw [if_pos hc]
        have e1 : (List.takeWhile (fun d => d == '\n') (c :: cs)).length
            + (List.dropWhile (fun d => d == '\n') (c :: cs)).length = (c :: cs).length := by
          rw [← List.length_append, List.takeWhile_append_dropWhile]
        have e2 := ih (List.dropWhile (fun d => d == '\n') (c :: cs))
        by_cases h3 : 3 ≤ (List.takeWhile (fun d => d == '\n') (c :: cs)).length
        · rw [if_pos h3]
          simp only [List.length_append, List.length_cons, List.length_nil] at e1 ⊢
          omega
        · rw [if_neg h3]
          simp only [List.length_append] at e1 ⊢
          omega
      · rw [if_neg hc]
        have := ih cs
        simp only [List.length_cons]
        omega

lemma length_collapseSTGo_le : ∀ (n : Nat) (t : Txt), (collapseSTGo n t).length ≤ t.length := by
  intro n
  induction n with
  | zero => intro t; exact le_refl _
  | succ n ih =>
    intro t
    match t with
    | [] => exact le_refl _
    | c :: cs =>
      show (collapseSTGo (n + 1) (c :: cs)).length ≤ (c :: cs).length
      unfold collapseSTGo
      by_cases hc : isSpaceTab c
      · rw [if_pos hc]
        have e1 : (List.takeWhile isSpaceTab (c :: cs)).length
            + (List.dropWhile isSpaceTab (c :: cs)).length = (c :: cs).length := by
          rw [← List.length_append, List.takeWhile_append_dropWhile]
        have e2 := ih (List.dropWhile isSpaceTab (c :: cs))
        by_cases h2 : 2 ≤ (List.takeWhile isSpaceTab (c :: cs)).length
        · rw [if_pos h2]
          simp only [List.length_append, List.length_cons, List.length_nil] at e1 ⊢
          omega
        · rw [if_neg h2]
          simp only [List.length_append] at e1 ⊢
          omega
      · rw [if_neg hc]
        have := ih cs
        simp only [List.length_cons]
        omega

lemma length_pyRemoveAllGo_le (pat : Txt) :
    ∀ (n : Nat) (t : Txt), (pyRemoveAllGo pat n t).length ≤ t.length := by
  intro n
  induction n with
  | zero => intro t; exact le_refl _
  | succ n ih =>
    intro t
    match t with
    | [] => exact le_refl _
    | c :: cs =>
      show (pyRemoveAllGo pat (n + 1) (c :: cs)).length ≤ (c :: cs).length
      unfold pyRemoveAllGo
      split
      · calc (pyRemoveAllGo pat n (List.drop pat.length (c :: cs))).length
            ≤ (List.drop pat.length (c :: cs)).length := ih _
          _ ≤ (c :: cs).length := by rw [List.length_drop]; omega
      · have := ih cs
        simp only [List.length_cons]
        omega

lemma length_remove_candidates_le (cands : List Txt) :
    ∀ t : Txt, (remove_candidates_from_page t cands).length ≤ t.length := by
  induction cands with
  | nil => intro t; exact le_refl _
  | cons c cs ih =>
    intro t
    show (List.foldl _ (if !c.isEmpty && txtContains c t then pyReplaceEmpty c t else t) cs).length ≤ _
    by_cases hc : !c.isEmpty && txtContains c t
    · rw [if_pos hc]
      calc (remove_candidates_from_page (pyReplaceEmpty c t) cs).length
          ≤ (pyReplaceEmpty c t).length := ih _
        _ ≤ t.length := length_pyRemoveAllGo_le c t.length t
    · rw [if_neg hc]
      exact ih t

lemma length_fix_hyphenation_le (t : Txt) : (fix_hyphenation t).length ≤ t.length := by
  unfold fix_hyphenation
  calc (pyStrip (collapseSpaceTab (collapseNewlines (subSingleNL (subHyphen t))))).length
      ≤ (collapseSpaceTab (collapseNewlines (subSingleNL (subHyphen t)))).length :=
        length_pyStrip_le _
    _ ≤ (collapseNewlines (subSingleNL (subHyphen t))).length := length_collapseSTGo_le _ _
    _ ≤ (subSingleNL (subHyphen t)).length := length_collapseNLGo_le _ _
    _ = (subHyphen t).length := length_subSingleNLGo _ false
    _ ≤ t.length := length_subHyphenGo_le _ _

/-- Claim C9: the normalizer produces exactly one output string per input
page, in the same count and order (the i-th output is computed from the
i-th raw page by header removal, footer removal and hyphenation fixing),
and each normalized page is never longer than its raw page. -/
theorem normalize_pages_shape (pages : List Txt) :
    (normalize_pages pages).length = pages.length
    ∧ ∀ i : Nat, ∀ h : i < pages.length,
        (normalize_pages pages).getD i []
            = fix_hyphenation (remove_candidates_from_page
                (remove_candidates_from_page (pages.get ⟨i, h⟩)
                  (detect_repeating_header_footer pages).1)
                (detect_repeating_header_footer pages).2)
          ∧ ((normalize_pages pages).getD i []).length ≤ (pages.get ⟨i, h⟩).length := by
  refine ⟨by rw [normalize_pages, List.length_map], ?_⟩
  intro i h
  have hlen : i < (normalize_pages pages).length := by
    rw [normalize_pages, List.length_map]; exact h
  have hget : (normalize_pages pages).getD i []
      = fix_hyphenation (remove_candidates_from_page
          (remove_candidates_from_page (pages.get ⟨i, h⟩)
            (detect_repeating_header_footer pages).1)
          (detect_repeating_header_footer pages).2) := by
    rw [List.getD_eq_getElem _ _ hlen]
    simp only [normalize_pages, List.getElem_map, List.get_eq_getElem]
  refine ⟨hget, ?_⟩
  rw [hget]
  exact le_trans (length_fix_hyphenation_le _)
    (le_trans (length_remove_candidates_le _ _) (length_remove_candidates_le _ _))

/-- A two-page sample document for the normalizer claim. -/
def samplePages : List Txt :=
  ["Head\nFirst body line\nFoot".toList, "Head\nSecond body\nFoot".toList]

/-- Claim C9 witness: the shape theorem applied to the two-page sample. -/
theorem normalize_pages_shape_witness :
    (normalize_pages samplePages).length = 2
    ∧ ((normalize_pages samplePages).getD 0 []).length
        ≤ (samplePages.get ⟨0, by decide⟩).length := by
  exact ⟨(normalize_pages_shape samplePages).1,
    ((normalize_pages_shape samplePages).2 0 (by decide)).2⟩

/-! ## Chunk ingestion loop (chunking_single_script.py main loop) -/

/-- Module constants of the chunking script. -/
def MAX_WORDS : Nat := 250

/-- The overlap constant of the chunking script. -/
def OVERLAP : Nat := 100

/-- The minimum word-count constant of the chunking script. -/
def MIN_WORDS : Nat := 40

/-- Chunk identifier "{base}-{e_idx}-{ci}". -/
def mkChunkId (base : Txt) (e_idx ci : Nat) : Txt :=
  base ++ "-".toList ++ (toString e_idx).toList ++ "-".toList ++ (toString ci).toList

/-- The body of one ingestion-loop iteration: strip the entry text, skip it
when empty or shorter than 50 words, otherwise chunk it and emit one
(id, chunk text) pair per chunk. -/
def ingestEntry (base : Txt) (e_idx : Nat) (rawText : Txt) : List (Txt × Txt) :=
  let text := pyStrip rawText
  if text = [] ∨ (pyWords text).length < 50 then []
  else ((chunk_text text MAX_WORDS OVERLAP MIN_WORDS).enum).map
    (fun p => (mkChunkId base e_idx p.1, p.2))

/-- The ingestion loop over the entries of one file, with the running
enumeration index. -/
def ingestFrom (base : Txt) : Nat → List Txt → List (Txt × Txt)
  | _, [] => []
  | e_idx, t :: ts => ingestEntry base e_idx t ++ ingestFrom base (e_idx + 1) ts

/-- All (id, chunk text) pairs one file contributes to the corpus. -/
def ingest (base : Txt) (texts : List Txt) : List (Txt × Txt) :=
  ingestFrom base 0 texts

lemma ingestFrom_append (base : Txt) (xs : List Txt) :
    ∀ (n : Nat) (ys : List Txt),
      ingestFrom base n (xs ++ ys)
        = ingestFrom base n xs ++ ingestFrom base (n + xs.length) ys := by
  induction xs with
  | nil => intro n ys; simp [ingestFrom]
  | cons t ts ih =>
    intro n ys
    simp only [List.cons_append, ingestFrom, List.append_eq, ih (n + 1),
      List.length_cons, List.append_assoc]
    have harith : n + 1 + ts.length = n + (ts.length + 1) := by omega
    rw [harith]

/-- Claim C10: an entry whose stripped text is empty or shorter than 50
words contributes no chunks and no chunk identifiers, while the entry index
still advances past it: the corpus equals the contribution of the earlier
entries followed by the contribution of the later entries computed with
their unchanged absolute indices. -/
theorem ingest_skips_short_entries (base : Txt) (texts : List Txt) (i : Nat)
    (h : i < texts.length)
    (hskip : pyStrip (texts.get ⟨i, h⟩) = []
      ∨ (pyWords (pyStrip (texts.get ⟨i, h⟩))).length < 50) :
    ingestEntry base i (texts.get ⟨i, h⟩) = []
    ∧ ingest base texts
        = ingestFrom base 0 (texts.take i)
          ++ ingestFrom base (i + 1) (texts.drop (i + 1)) := by
  have h1 : ingestEntry base i (texts.get ⟨i, h⟩) = [] := by
    simp only [ingestEntry]
    rw [if_pos hskip]
  refine ⟨h1, ?_⟩
  have hdecomp : texts = texts.take i ++ texts.get ⟨i, h⟩ :: texts.drop (i + 1) := by
    conv_lhs => rw [← List.take_append_drop i texts]
    rw [List.get_eq_getElem, List.getElem_cons_drop]
  calc ingest base texts
      = ingestFrom base 0 (texts.take i ++ texts.get ⟨i, h⟩ :: texts.drop (i + 1)) := by
        rw [ingest, ← hdecomp]
    _ = ingestFrom base 0 (texts.take i)
        ++ ingestFrom base (0 + (texts.take i).length)
            (texts.get ⟨i, h⟩ :: texts.drop (i + 1)) := ingestFrom_append base _ 0 _
    _ = ingestFrom base 0 (texts.take i)
        ++ ingestFrom base (i + 1) (texts.drop (i + 1)) := by
        have hlen : (texts.take i).length = i := by
          rw [List.length_take]
          omega
        rw [hlen, Nat.zero_add, ingestFrom, h1, List.nil_append]

/-- Entries of a sample file: one long entry followed by a short one. -/
def sampleEntries : List Txt :=
  ["First entry with real content.".toList, "tiny note".toList]

/-- Claim C10 witness: the skipping theorem applied to the short second
entry of the sample file. -/
theorem ingest_skips_short_entries_witness :
    ingestEntry "doc".toList 1 (sampleEntries.get ⟨1, by decide⟩) = []
    ∧ ingest "doc".toList sampleEntries
        = ingestFrom "doc".toList 0 (sampleEntries.take 1)
          ++ ingestFrom "doc".toList 2 (sampleEntries.drop 2) :=
  ingest_skips_short_entries "doc".toList sampleEntries 1 (by decide) (by decide)
